import Mathlib

/-!
Verification of the sandboxed metric-execution engine in
`src/pages/api/execute-metric.ts` (repository `couple-investments`).

The development shallowly embeds the module's capability surface
(`getTickerPrice`, `getHistoricalData`, `getExchangeRate`,
`findLastEarningsDate`, `getPriceOnDate`, `getDateAfterTradingDays`)
and the isolate driver `executeJsInIsolate`.

Modelling conventions:
* JavaScript numbers are modelled as `ℚ`; no verified property depends on
  binary floating-point rounding, and `toFixed`/`parseFloat` rounding is
  modelled as exact decimal rounding.
* A thrown JavaScript exception is modelled as `Except.error`; `try/catch`
  is `tryCatchJs` below.
* Host-side network fetches (`equity-data.ts`) and the `isolated-vm`
  engine primitives are nondeterministic external calls; they are
  modelled as oracle records (`FetchOracle`, `IsolateOracle`) whose
  fields give the outcome of each call, so theorems quantify over every
  possible behaviour of those collaborators, including throwing.
* Calendar dates appear in two equivalent guises.  For the weekend
  arithmetic of `getDateAfterTradingDays` a date is its day index
  (`Nat`, day 0 a Monday): date-fns `addDays` is `+`, `isWeekend`
  inspects the index mod 7.  For the purely order-based uses
  (`findLastEarningsDate`, `getHistoricalData`) a date is its ISO
  `yyyy-MM-dd` string, on which calendar order coincides with string
  order; date-fns `startOfDay ∘ parseISO` is order-preserving, so a
  midnight `Date` value is represented by the date string itself.
-/

/-- A thrown JavaScript exception: a `ReferenceError` on an unbound
identifier, or any other host-side error with its message. -/
inductive JsErr where
  | referenceError (name : String)
  | hostError (msg : String)
deriving DecidableEq

/-- Embedding of a JavaScript `try { body } catch (e) { handler }`. -/
def tryCatchJs {α : Type} (body : Except JsErr α) (handler : JsErr → Except JsErr α) :
    Except JsErr α :=
  match body with
  | .ok v => .ok v
  | .error e => handler e

/-- `parseFloat(x.toFixed(k))`, modelled as exact rounding to `k`
decimal places. -/
def roundTo (k : Nat) (q : ℚ) : ℚ :=
  (round (q * (10 : ℚ) ^ k) : ℤ) / (10 : ℚ) ^ k

/-- date-fns `isWeekend` on the day-index model of dates
(day 0 is a Monday, so indices `≡ 5, 6 [MOD 7]` are Saturday/Sunday). -/
def isWeekend (d : Nat) : Bool := decide (5 ≤ d % 7)

/-- The `while (tradingDaysCounted < tradingDays)` loop of
`getDateAfterTradingDays` (execute-metric.ts).  Each iteration advances
`currentDate` by one day (`addDays(currentDate, 1)`), increments
`daysAdded`, counts the day when it is not a weekend, and applies the
safety break `daysAdded > tradingDays * 3 && tradingDays > 0 → null`. -/
def tradingLoop (tradingDays currentDate daysAdded tradingDaysCounted : Nat) :
    Option Nat :=
  if h : tradingDaysCounted < tradingDays then
    let currentDate' := currentDate + 1
    let daysAdded' := daysAdded + 1
    let tradingDaysCounted' :=
      if isWeekend currentDate' then tradingDaysCounted else tradingDaysCounted + 1
    if h2 : tradingDays * 3 < daysAdded' ∧ 0 < tradingDays then
      none
    else
      tradingLoop tradingDays currentDate' daysAdded' tradingDaysCounted'
  else
    some currentDate
termination_by tradingDays * 3 + 1 - daysAdded
decreasing_by
  simp only [not_and, not_lt] at h2
  omega

/-- `getDateAfterTradingDays` from execute-metric.ts, on the day-index
model of dates: negative counts return `null`, a zero count returns the
start date unchanged, and otherwise the weekend-skipping loop runs from
the parsed start date.  In the model the date arithmetic of the `try`
body cannot throw, so the surrounding `try/catch` is the identity. -/
def getDateAfterTradingDays (startDate : Nat) (tradingDays : Int) : Option Nat :=
  if tradingDays < 0 then none
  else if tradingDays = 0 then some startDate
  else tradingLoop tradingDays.toNat startDate 0 0

/-- One loop iteration, when the safety break stays quiet. -/
theorem tradingLoop_step (n c a t : Nat) (h : t < n) (hg : a + 1 ≤ n * 3) :
    tradingLoop n c a t =
      tradingLoop n (c + 1) (a + 1) (if isWeekend (c + 1) then t else t + 1) := by
  rw [tradingLoop]
  have h2 : ¬(n * 3 < a + 1 ∧ 0 < n) := by omega
  simp [h, h2]

/-- The safety break: once `daysAdded` would exceed `tradingDays * 3`,
the loop aborts to `null`. -/
theorem tradingLoop_break (n c a t : Nat) (h : t < n) (hg : n * 3 < a + 1) :
    tradingLoop n c a t = none := by
  rw [tradingLoop]
  have h2 : n * 3 < a + 1 ∧ 0 < n := ⟨hg, by omega⟩
  simp [h, h2]

/-- Loop exit: when the count has reached the target the current date
is returned. -/
theorem tradingLoop_exit (n c a t : Nat) (h : ¬ t < n) :
    tradingLoop n c a t = some c := by
  rw [tradingLoop]
  simp [h]

/-- Number of non-weekend days among `d+1, …, d+m` — the trading days
the loop counts while walking `m` calendar days forward from `d`. -/
def tradingDaysBetween (d : Nat) : Nat → Nat
  | 0 => 0
  | m + 1 => tradingDaysBetween d m + (if isWeekend (d + (m + 1)) then 0 else 1)

theorem tradingDaysBetween_add (d a b : Nat) :
    tradingDaysBetween d (a + b) =
      tradingDaysBetween d a + tradingDaysBetween (d + a) b := by
  induction b with
  | zero => simp [tradingDaysBetween]
  | succ b ih =>
    have h1 : a + (b + 1) = (a + b) + 1 := by omega
    rw [h1]
    simp only [tradingDaysBetween, ih]
    have h2 : d + (a + b + 1) = d + a + (b + 1) := by omega
    rw [h2]
    omega

/-- Any three consecutive days contain at least one non-weekend day. -/
theorem one_le_tradingDaysBetween_three (x : Nat) :
    1 ≤ tradingDaysBetween x 3 := by
  have h3 : tradingDaysBetween x 3 =
      ((0 + (if isWeekend (x + 1) then 0 else 1)) +
        (if isWeekend (x + 2) then 0 else 1)) +
        (if isWeekend (x + 3) then 0 else 1) := rfl
  rw [h3]
  simp only [isWeekend, decide_eq_true_eq]
  split_ifs <;> omega

/-- Within `3 * n` calendar days there are always at least `n` trading
days: the arithmetic fact behind the loop's heuristic safety bound. -/
theorem le_tradingDaysBetween_triple (d n : Nat) :
    n ≤ tradingDaysBetween d (n * 3) := by
  induction n with
  | zero => simp
  | succ n ih =>
    have h1 : (n + 1) * 3 = n * 3 + 3 := by omega
    rw [h1, tradingDaysBetween_add]
    have := one_le_tradingDaysBetween_three (d + n * 3)
    omega

/-- The next loop count is the trading-day count one day further on. -/
theorem count_step (d a t : Nat) (ht : t = tradingDaysBetween d a) :
    (if isWeekend (d + a + 1) then t else t + 1) = tradingDaysBetween d (a + 1) := by
  have hW : isWeekend (d + (a + 1)) = isWeekend (d + a + 1) := rfl
  simp only [tradingDaysBetween, hW, ← ht]
  cases h : isWeekend (d + a + 1) <;> simp

/-- Soundness of the weekend-skipping loop: run from a state whose
`currentDate` is `d + daysAdded` and whose count is the number of
trading days walked so far, a `some` result is a strictly later,
non-weekend day with exactly `tradingDays` trading days in between. -/
theorem tradingLoop_sound (d n : Nat) :
    ∀ b a t, n * 3 - a = b → t = tradingDaysBetween d a → t < n →
      ∀ e, tradingLoop n (d + a) a t = some e →
        d + a < e ∧ tradingDaysBetween d (e - d) = n ∧ isWeekend e = false := by
  intro b
  induction b with
  | zero =>
    intro a t hb ht hlt e he
    rw [tradingLoop_break n (d + a) a t hlt (by omega)] at he
    exact absurd he (by simp)
  | succ b ih =>
    intro a t hb ht hlt e he
    have ha : a < n * 3 := by omega
    rw [tradingLoop_step n (d + a) a t hlt (by omega)] at he
    have ht' := count_step d a t ht
    rw [ht'] at he
    by_cases hn : tradingDaysBetween d (a + 1) < n
    · have hrec :
          tradingLoop n (d + (a + 1)) (a + 1) (tradingDaysBetween d (a + 1)) = some e := he
      have := ih (a + 1) (tradingDaysBetween d (a + 1)) (by omega) rfl hn e hrec
      exact ⟨by omega, this.2.1, this.2.2⟩
    · rw [tradingLoop_exit n (d + a + 1) (a + 1) _ hn] at he
      have he' : e = d + a + 1 := (Option.some.inj he).symm
      subst he'
      have hWf : isWeekend (d + a + 1) = false := by
        cases hW : isWeekend (d + a + 1)
        · rfl
        · exfalso
          rw [hW] at ht'
          simp at ht'
          omega
      rw [hWf] at ht'
      simp only [Bool.false_eq_true, if_false] at ht'
      refine ⟨by omega, ?_, hWf⟩
      rw [show d + a + 1 - d = a + 1 by omega]
      omega

/-- Totality of the weekend-skipping loop: from a faithful state with
`daysAdded ≤ tradingDays * 3`, the safety break never fires and the
loop reaches a `some` result within `tradingDays * 3` calendar days
of `d`. -/
theorem tradingLoop_total (d n : Nat) :
    ∀ b a t, n * 3 - a = b → t = tradingDaysBetween d a → t < n → a ≤ n * 3 →
      ∃ e, tradingLoop n (d + a) a t = some e ∧ e ≤ d + n * 3 := by
  intro b
  induction b with
  | zero =>
    intro a t hb ht hlt hle
    exfalso
    have h1 : a = n * 3 := by omega
    have h2 := le_tradingDaysBetween_triple d n
    rw [← h1] at h2
    omega
  | succ b ih =>
    intro a t hb ht hlt hle
    have ha : a < n * 3 := by omega
    rw [tradingLoop_step n (d + a) a t hlt (by omega)]
    have ht' := count_step d a t ht
    rw [ht']
    by_cases hn : tradingDaysBetween d (a + 1) < n
    · obtain ⟨e, he, hbd⟩ :=
        ih (a + 1) (tradingDaysBetween d (a + 1)) (by omega) rfl hn (by omega)
      exact ⟨e, he, hbd⟩
    · exact ⟨d + a + 1, tradingLoop_exit n (d + a + 1) (a + 1) _ hn, by omega⟩

/-- C4 — `getDateAfterTradingDays(d, 0) = d`; for `n ≥ 1` a returned
date lies strictly after `d`, is not a weekend day, and has exactly `n`
non-weekend days in the day-by-day walk from `d` to it (no holiday
awareness); and whenever the day-iteration counter passes `3 × n` the
loop aborts to `null`. -/
theorem getDateAfterTradingDays_spec (d n : Nat) (hn : 1 ≤ n) :
    getDateAfterTradingDays d 0 = some d ∧
    (∀ e, getDateAfterTradingDays d (n : Int) = some e →
      d < e ∧ tradingDaysBetween d (e - d) = n ∧ isWeekend e = false) ∧
    (∀ c a t, t < n → n * 3 ≤ a → tradingLoop n c a t = none) := by
  refine ⟨rfl, ?_, ?_⟩
  · intro e he
    have h0 : ¬((n : Int) < 0) := by
      simp
    have h1 : ¬((n : Int) = 0) := by
      simp
      omega
    rw [getDateAfterTradingDays, if_neg h0, if_neg h1] at he
    rw [Int.toNat_natCast] at he
    have he' : tradingLoop n (d + 0) 0 0 = some e := he
    have := tradingLoop_sound d n (n * 3 - 0) 0 0 rfl rfl (by omega) e he'
    exact ⟨by omega, this.2.1, this.2.2⟩
  · intro c a t hlt hge
    exact tradingLoop_break n c a t hlt (by omega)

/-- C4 witness: from day 4 (a Friday), one trading day later is day 7
(the following Monday). -/
theorem getDateAfterTradingDays_spec_witness :
    getDateAfterTradingDays 4 0 = some 4 ∧
    (4 < 7 ∧ tradingDaysBetween 4 (7 - 4) = 1 ∧ isWeekend 7 = false) := by
  have h := getDateAfterTradingDays_spec 4 1 (by decide)
  have heval : getDateAfterTradingDays 4 (1 : Int) = some 7 := by
    rw [getDateAfterTradingDays]
    norm_num
    rw [tradingLoop_step 1 4 0 0 (by decide) (by decide)]
    rw [show (if isWeekend 5 then 0 else 1) = 0 by decide]
    rw [tradingLoop_step 1 5 1 0 (by decide) (by decide)]
    rw [show (if isWeekend 6 then 0 else 1) = 0 by decide]
    rw [tradingLoop_step 1 6 2 0 (by decide) (by decide)]
    rw [show (if isWeekend 7 then 0 else 1) = 1 by decide]
    exact tradingLoop_exit 1 7 3 1 (by decide)
  exact ⟨h.1, h.2.1 7 heval⟩

/-- C10 — for every start day and every `n ≥ 1` the loop reaches its
count within the `3 × n` iteration budget, so the safety break is never
taken and the function returns a date (no `null`). -/
theorem getDateAfterTradingDays_total (d n : Nat) (hn : 1 ≤ n) :
    ∃ e, getDateAfterTradingDays d (n : Int) = some e ∧ e ≤ d + n * 3 := by
  obtain ⟨e, he, hbd⟩ :=
    tradingLoop_total d n (n * 3) 0 0 (by omega) rfl (by omega) (by omega)
  refine ⟨e, ?_, hbd⟩
  have h0 : ¬((n : Int) < 0) := by simp
  have h1 : ¬((n : Int) = 0) := by simp; omega
  rw [getDateAfterTradingDays, if_neg h0, if_neg h1, Int.toNat_natCast]
  exact he

/-- C10 witness: from day 0 (a Monday) the 5th trading day is day 5…
applied at `d = 0`, `n = 1`: a result exists within 3 days. -/
theorem getDateAfterTradingDays_total_witness :
    ∃ e, getDateAfterTradingDays 0 (1 : Int) = some e ∧ e ≤ 0 + 1 * 3 :=
  getDateAfterTradingDays_total 0 1 (by decide)

/-- One record of the Finnhub earnings calendar (`equity-data.ts`,
`FinnhubEarning`).  Of its fields (`date`, `epsActual`, `epsEstimate`,
`hour`, `quarter`, `revenueActual`, `revenueEstimate`, `symbol`,
`year`) only `date` is ever read by execute-metric.ts, so the model
keeps just that field. -/
structure FinnhubEarning where
  date : String
deriving DecidableEq

/-- Outcomes of the four host-side fetch functions imported from
`equity-data.ts`, one field per function; each call either returns a
value or throws.  `candles` returns the entries of the
`HistoricalData` object (its keys are unique, being JS object keys —
stated as a hypothesis where needed); `forexRates` returns the quote
map or `null`; `earningsCalendar` takes the ticker and the upper date
bound of the queried window (the 365-day lookback start is determined
by that bound) and returns the records of the fetched window. -/
structure FetchOracle where
  quote : String → Except JsErr (Option ℚ)
  candles : String → String → String → Except JsErr (List (String × ℚ))
  forexRates : String → Except JsErr (Option (List (String × ℚ)))
  earningsCalendar : String → String → Except JsErr (List FinnhubEarning)

/-- `getTickerPrice` (execute-metric.ts): forwards
`fetchFinnhubQuote`'s answer, and its `catch` converts any thrown
error to `null`. -/
def getTickerPrice (o : FetchOracle) (ticker : String) : Except JsErr (Option ℚ) :=
  tryCatchJs (o.quote ticker) fun _ => .ok none

/-- `getHistoricalData` (execute-metric.ts): fetches the candle map for
the range, turns its entries into `{date, price}` records and sorts
them by `date.localeCompare` (on ISO dates: string order); the `catch`
converts any thrown error to the empty list. -/
def getHistoricalData (o : FetchOracle) (ticker startDate endDate : String) :
    Except JsErr (List (String × ℚ)) :=
  tryCatchJs
    (do
      let historicalDataMap ← o.candles ticker startDate endDate
      pure (historicalDataMap.mergeSort fun a b => decide (a.1 ≤ b.1)))
    fun _ => .ok []

/-- `getExchangeRate` (execute-metric.ts): fetches the rate map for the
base currency; if the map exists and holds a numeric rate for the
target currency, that rate is returned rounded to 6 decimals
(`parseFloat(….toFixed(6))`), otherwise `null`; the `catch` converts
any thrown error to `null`. -/
def getExchangeRate (o : FetchOracle) (fromCurrency toCurrency : String) :
    Except JsErr (Option ℚ) :=
  tryCatchJs
    (do
      let rates ← o.forexRates fromCurrency
      match rates with
      | some rs =>
        match rs.lookup toCurrency with
        | some r => pure (some (roundTo 6 r))
        | none => pure none
      | none => pure none)
    fun _ => .ok none

/-- `getPriceOnDate` (execute-metric.ts): fetches candles for the
single-day range `[date, date]` and returns the price stored under the
`date` key, or `null` when absent; the `catch` converts any thrown
error to `null`. -/
def getPriceOnDate (o : FetchOracle) (ticker date : String) : Except JsErr (Option ℚ) :=
  tryCatchJs
    (do
      let historicalDataMap ← o.candles ticker date date
      match historicalDataMap.lookup date with
      | some price => pure (some price)
      | none => pure none)
    fun _ => .ok none

/-- JS `Array.prototype.filter` with a predicate that may throw
(evaluated left to right, the first throw propagating). -/
def filterE {α : Type} (p : α → Except JsErr Bool) : List α → Except JsErr (List α)
  | [] => .ok []
  | x :: xs => do
      let b ← p x
      let rest ← filterE p xs
      pure (if b then x :: rest else rest)

/-- The body of `findLastEarningsDate` (execute-metric.ts), generic in
the runtime meaning `sod` of the identifier `startOfDay` (the composite
`startOfDay(parseISO(·))`; on the string model of midnight dates a
working implementation is the identity).  `todayStr` is the current
date, used when the caller passes `"today"` (`startOfDay(new Date())`).
The body resolves the bound date, fetches the earnings window, returns
`null` on an empty answer, and otherwise filters the records strictly
before the bound, sorts them descending by date
(`b.date.localeCompare(a.date)`) and returns the first date; the
`catch` converts any thrown error to `null`. -/
def findLastEarningsDateWith (sod : String → Except JsErr String) (todayStr : String)
    (o : FetchOracle) (ticker beforeDateStr : String) : Except JsErr (Option String) :=
  tryCatchJs
    (do
      let beforeDate ← if beforeDateStr = "today" then sod todayStr else sod beforeDateStr
      let earnings ← o.earningsCalendar ticker beforeDate
      if earnings.length = 0 then
        pure none
      else do
        let pastEarnings ← filterE
          (fun e => do
            let dd ← sod e.date
            pure (decide (dd < beforeDate)))
          earnings
        match pastEarnings.mergeSort (fun a b => decide (b.date ≤ a.date)) with
        | [] => pure none
        | e :: _ => pure (some e.date))
    fun _ => .ok none

/-- The runtime meaning of `startOfDay` in execute-metric.ts as
written: the module's date-fns import list (`format`, `addDays`,
`parseISO`, `isWeekend`, `subDays`, `differenceInCalendarDays`) does
not include `startOfDay`, and the module does not define it, so every
evaluation of the identifier throws a `ReferenceError`. -/
def startOfDayUnbound : String → Except JsErr String :=
  fun _ => .error (.referenceError "startOfDay")

/-- `startOfDay ∘ parseISO` as it would behave had execute-metric.ts
imported `startOfDay` from date-fns: on the string model of dates the
midnight `Date` of a valid ISO date string is the string itself. -/
def startOfDayFixed : String → Except JsErr String := fun s => .ok s

/-- `findLastEarningsDate` exactly as execute-metric.ts ships it: the
generic body instantiated with the unbound `startOfDay`. -/
def findLastEarningsDate (todayStr : String) (o : FetchOracle)
    (ticker beforeDateStr : String) : Except JsErr (Option String) :=
  findLastEarningsDateWith startOfDayUnbound todayStr o ticker beforeDateStr

/-- The `try/catch` shell of `getDateAfterTradingDays`: the two early
returns happen before the `try`, and in the model the date arithmetic
of the body cannot throw, so the capability always resolves. -/
def getDateAfterTradingDaysE (startDate : Nat) (tradingDays : Int) :
    Except JsErr (Option Nat) :=
  if tradingDays < 0 then .ok none
  else if tradingDays = 0 then .ok (some startDate)
  else tryCatchJs (.ok (tradingLoop tradingDays.toNat startDate 0 0)) fun _ => .ok none

theorem tryCatchJs_ok {α : Type} (v : α) (h : JsErr → Except JsErr α) :
    tryCatchJs (.ok v) h = .ok v := rfl

theorem tryCatchJs_error {α : Type} (e : JsErr) (h : JsErr → Except JsErr α) :
    tryCatchJs (.error e) h = h e := rfl

theorem bindE_ok {α β : Type} (v : α) (k : α → Except JsErr β) :
    (Except.ok v >>= k) = k v := rfl

theorem bindE_error {α β : Type} (e : JsErr) (k : α → Except JsErr β) :
    ((Except.error e : Except JsErr α) >>= k) = .error e := rfl

theorem pureE {α : Type} (v : α) : (pure v : Except JsErr α) = .ok v := rfl

/-- With the unbound `startOfDay`, the body of `findLastEarningsDate`
throws on its very first statement and the `catch` yields `null`,
whatever the oracle, ticker or bound. -/
theorem findLastEarningsDateWith_unbound (todayStr : String) (o : FetchOracle)
    (ticker beforeDateStr : String) :
    findLastEarningsDateWith startOfDayUnbound todayStr o ticker beforeDateStr = .ok none := by
  unfold findLastEarningsDateWith
  by_cases h : beforeDateStr = "today"
  · rw [if_pos h]
    rfl
  · rw [if_neg h]
    rfl

/-- C6 — as written, `findLastEarningsDate` resolves to `null` for
every ticker, every `beforeDate` (including `"today"`), every current
date and every fetch behaviour: evaluating the unbound identifier
`startOfDay` raises a `ReferenceError` that the `catch` converts to
`null`, so the non-null branch is unreachable. -/
theorem findLastEarningsDate_always_null (todayStr : String) (o : FetchOracle)
    (ticker beforeDateStr : String) :
    findLastEarningsDate todayStr o ticker beforeDateStr = .ok none :=
  findLastEarningsDateWith_unbound todayStr o ticker beforeDateStr

/-- C1 — every capability absorbs a throwing fetch into its documented
null/empty sentinel, and no capability ever propagates an exception:
whatever the oracle does, each capability resolves (`Except.ok`). -/
theorem capabilities_absorb_errors (o : FetchOracle)
    (todayStr ticker fromCurrency toCurrency date startDate endDate beforeDateStr : String) :
    (∀ e, o.quote ticker = .error e → getTickerPrice o ticker = .ok none) ∧
    (∃ v, getTickerPrice o ticker = .ok v) ∧
    (∀ e, o.candles ticker startDate endDate = .error e →
      getHistoricalData o ticker startDate endDate = .ok []) ∧
    (∃ v, getHistoricalData o ticker startDate endDate = .ok v) ∧
    (∀ e, o.forexRates fromCurrency = .error e →
      getExchangeRate o fromCurrency toCurrency = .ok none) ∧
    (∃ v, getExchangeRate o fromCurrency toCurrency = .ok v) ∧
    (∀ e, o.earningsCalendar ticker
        (if beforeDateStr = "today" then todayStr else beforeDateStr) = .error e →
      findLastEarningsDate todayStr o ticker beforeDateStr = .ok none) ∧
    (∃ v, findLastEarningsDate todayStr o ticker beforeDateStr = .ok v) ∧
    (∀ e, o.candles ticker date date = .error e →
      getPriceOnDate o ticker date = .ok none) ∧
    (∃ v, getPriceOnDate o ticker date = .ok v) ∧
    (∀ (dd : Nat) (k : Int), ∃ v, getDateAfterTradingDaysE dd k = .ok v) := by
  refine ⟨?_, ?_, ?_, ?_, ?_, ?_, ?_, ?_, ?_, ?_, ?_⟩
  · intro e he
    simp [getTickerPrice, he, tryCatchJs_error]
  · cases hq : o.quote ticker with
    | error e => exact ⟨none, by simp [getTickerPrice, hq, tryCatchJs_error]⟩
    | ok v => exact ⟨v, by simp [getTickerPrice, hq, tryCatchJs_ok]⟩
  · intro e he
    simp [getHistoricalData, he, bindE_error, tryCatchJs_error]
  · cases hc : o.candles ticker startDate endDate with
    | error e =>
      exact ⟨[], by simp [getHistoricalData, hc, bindE_error, tryCatchJs_error]⟩
    | ok l =>
      exact ⟨l.mergeSort fun a b => decide (a.1 ≤ b.1),
        by simp [getHistoricalData, hc, bindE_ok, pureE, tryCatchJs_ok]⟩
  · intro e he
    simp [getExchangeRate, he, bindE_error, tryCatchJs_error]
  · cases hf : o.forexRates fromCurrency with
    | error e =>
      exact ⟨none, by simp [getExchangeRate, hf, bindE_error, tryCatchJs_error]⟩
    | ok rates =>
      cases rates with
      | none =>
        exact ⟨none, by simp [getExchangeRate, hf, bindE_ok, pureE, tryCatchJs_ok]⟩
      | some rs =>
        cases hl : rs.lookup toCurrency with
        | none =>
          exact ⟨none,
            by simp [getExchangeRate, hf, hl, bindE_ok, pureE, tryCatchJs_ok]⟩
        | some r =>
          exact ⟨some (roundTo 6 r),
            by simp [getExchangeRate, hf, hl, bindE_ok, pureE, tryCatchJs_ok]⟩
  · intro e _
    exact findLastEarningsDateWith_unbound todayStr o ticker beforeDateStr
  · exact ⟨none, findLastEarningsDateWith_unbound todayStr o ticker beforeDateStr⟩
  · intro e he
    simp [getPriceOnDate, he, bindE_error, tryCatchJs_error]
  · cases hc : o.candles ticker date date with
    | error e =>
      exact ⟨none, by simp [getPriceOnDate, hc, bindE_error, tryCatchJs_error]⟩
    | ok l =>
      cases hl : l.lookup date with
      | none =>
        exact ⟨none, by simp [getPriceOnDate, hc, hl, bindE_ok, pureE, tryCatchJs_ok]⟩
      | some p =>
        exact ⟨some p, by simp [getPriceOnDate, hc, hl, bindE_ok, pureE, tryCatchJs_ok]⟩
  · intro dd k
    unfold getDateAfterTradingDaysE
    split_ifs
    · exact ⟨none, rfl⟩
    · exact ⟨some dd, rfl⟩
    · exact ⟨tradingLoop k.toNat dd 0 0, rfl⟩

/-- A fetch oracle on which every network call throws. -/
def oracleThrowAll : FetchOracle where
  quote := fun _ => .error (.hostError "Finnhub request failed")
  candles := fun _ _ _ => .error (.hostError "Finnhub request failed")
  forexRates := fun _ => .error (.hostError "Finnhub request failed")
  earningsCalendar := fun _ _ => .error (.hostError "Finnhub request failed")

/-- C1 witness: on the everything-throws oracle each capability
resolves to its sentinel. -/
theorem capabilities_absorb_errors_witness :
    getTickerPrice oracleThrowAll "AAPL" = .ok none ∧
    getHistoricalData oracleThrowAll "AAPL" "2024-01-01" "2024-01-31" = .ok [] ∧
    getExchangeRate oracleThrowAll "USD" "EUR" = .ok none ∧
    findLastEarningsDate "2024-06-01" oracleThrowAll "NVDA" "today" = .ok none ∧
    getPriceOnDate oracleThrowAll "AAPL" "2024-01-02" = .ok none ∧
    (∃ v, getDateAfterTradingDaysE 0 (-1) = .ok v) := by
  have h := capabilities_absorb_errors oracleThrowAll "2024-06-01" "AAPL" "USD" "EUR"
    "2024-01-02" "2024-01-01" "2024-01-31" "today"
  exact ⟨h.1 (.hostError "Finnhub request failed") rfl,
    h.2.2.1 (.hostError "Finnhub request failed") rfl,
    h.2.2.2.2.1 (.hostError "Finnhub request failed") rfl,
    h.2.2.2.2.2.2.1 (.hostError "Finnhub request failed") rfl,
    h.2.2.2.2.2.2.2.2.1 (.hostError "Finnhub request failed") rfl,
    h.2.2.2.2.2.2.2.2.2.2 0 (-1)⟩

/-- C7 — on any successful candle fetch (whose map keys are unique, as
JS object keys are), `getHistoricalData` returns exactly the entries of
the map, sorted strictly ascending by date; it returns the empty list
when the range holds no data. -/
theorem getHistoricalData_sorted (o : FetchOracle) (ticker startDate endDate : String)
    (l : List (String × ℚ)) (hok : o.candles ticker startDate endDate = .ok l)
    (hnd : (l.map Prod.fst).Nodup) :
    ∃ r, getHistoricalData o ticker startDate endDate = .ok r ∧
      r.Perm l ∧ r.Pairwise (fun a b => a.1 < b.1) ∧ (l = [] → r = []) := by
  refine ⟨l.mergeSort fun a b => decide (a.1 ≤ b.1), ?_, ?_, ?_, ?_⟩
  · simp [getHistoricalData, hok, bindE_ok, pureE, tryCatchJs_ok]
  · exact List.mergeSort_perm l _
  · have hs := @List.sorted_mergeSort (String × ℚ)
      (fun a b => decide (a.1 ≤ b.1))
      (fun a b c hab hbc => by
        simp only [decide_eq_true_eq] at *
        exact le_trans hab hbc)
      (fun a b => by
        simp only [Bool.or_eq_true, decide_eq_true_eq]
        exact le_total a.1 b.1)
      l
    have hperm : (l.mergeSort fun a b => decide (a.1 ≤ b.1)).Perm l :=
      List.mergeSort_perm l _
    have hnd' : ((l.mergeSort fun a b => decide (a.1 ≤ b.1)).map Prod.fst).Nodup :=
      ((hperm.map Prod.fst).nodup_iff).mpr hnd
    have hne : (l.mergeSort fun a b => decide (a.1 ≤ b.1)).Pairwise
        (fun a b => a.1 ≠ b.1) := List.pairwise_map.mp hnd'
    have hle : (l.mergeSort fun a b => decide (a.1 ≤ b.1)).Pairwise
        (fun a b => a.1 ≤ b.1) := hs.imp (by simp)
    exact hle.imp₂ (fun a b h1 h2 => lt_of_le_of_ne h1 h2) hne
  · intro h
    subst h
    simp

/-- A fetch oracle whose candle map holds two dated prices (listed in
the JS object's insertion order, which is not date order). -/
def oracleCandles : FetchOracle where
  quote := fun _ => .ok none
  candles := fun _ _ _ => .ok [("2024-01-03", (3 : ℚ)), ("2024-01-02", (2 : ℚ))]
  forexRates := fun _ => .ok none
  earningsCalendar := fun _ _ => .ok []

/-- C7 witness: the two-entry candle map yields a strictly ascending
permutation of its entries. -/
theorem getHistoricalData_sorted_witness :
    ∃ r, getHistoricalData oracleCandles "AAPL" "2024-01-01" "2024-01-05" = .ok r ∧
      r.Perm [("2024-01-03", (3 : ℚ)), ("2024-01-02", (2 : ℚ))] ∧
      r.Pairwise (fun a b => a.1 < b.1) ∧
      ([("2024-01-03", (3 : ℚ)), ("2024-01-02", (2 : ℚ))] = ([] : List (String × ℚ)) →
        r = []) :=
  getHistoricalData_sorted oracleCandles "AAPL" "2024-01-01" "2024-01-05"
    [("2024-01-03", (3 : ℚ)), ("2024-01-02", (2 : ℚ))] rfl (by decide)

/-- A fetch oracle whose earnings calendar holds one record, dated
strictly before 2024-01-01. -/
def oracleEarnings : FetchOracle where
  quote := fun _ => .ok none
  candles := fun _ _ _ => .ok []
  forexRates := fun _ => .ok none
  earningsCalendar := fun _ _ => .ok [⟨"2023-10-15"⟩]

/-- `filterE` with the (repaired) pure `startOfDay` is `List.filter` on
the date comparison. -/
theorem filterE_fixed (bd : String) (l : List FinnhubEarning) :
    filterE
      (fun e => do
        let dd ← startOfDayFixed e.date
        pure (decide (dd < bd)))
      l = .ok (l.filter fun e => decide (e.date < bd)) := by
  induction l with
  | nil => rfl
  | cons x xs ih =>
    rw [filterE]
    have hp : (do
        let dd ← startOfDayFixed x.date
        pure (decide (dd < bd)) : Except JsErr Bool) = .ok (decide (x.date < bd)) := rfl
    rw [hp, bindE_ok, ih, bindE_ok, List.filter_cons]
    cases h : decide (x.date < bd) <;> simp [h, pureE]

/-- C5 — the concrete divergence: with an available record dated
2023-10-15 and bound 2024-01-01, the shipped `findLastEarningsDate`
returns `null` even though a strictly earlier record exists; with
`startOfDay` imported (as the spec intends) the same call returns that
record's date, the maximum one strictly before the bound. -/
theorem findLastEarningsDate_drops_existing_record :
    findLastEarningsDate "2024-06-01" oracleEarnings "NVDA" "2024-01-01" = .ok none ∧
    ("2023-10-15" : String) < "2024-01-01" ∧
    findLastEarningsDateWith startOfDayFixed "2024-06-01" oracleEarnings "NVDA" "2024-01-01" =
      .ok (some "2023-10-15") := by
  have hlt : ("2023-10-15" : String) < "2024-01-01" := by
    rw [String.lt_iff_toList_lt]
    decide
  refine ⟨findLastEarningsDateWith_unbound _ _ _ _, hlt, ?_⟩
  rw [findLastEarningsDateWith]
  rw [if_neg (by decide : ¬("2024-01-01" : String) = "today")]
  simp only [startOfDayFixed, bindE_ok]
  rw [show oracleEarnings.earningsCalendar "NVDA" "2024-01-01" =
    .ok [⟨"2023-10-15"⟩] from rfl]
  simp only [bindE_ok]
  rw [if_neg (by decide : ¬([(⟨"2023-10-15"⟩ : FinnhubEarning)].length = 0))]
  rw [show filterE (fun e => pure (decide (e.date < "2024-01-01")))
      [(⟨"2023-10-15"⟩ : FinnhubEarning)] =
      .ok (if decide (("2023-10-15" : String) < "2024-01-01")
        then [(⟨"2023-10-15"⟩ : FinnhubEarning)] else []) from rfl]
  rw [decide_eq_true hlt]
  simp [tryCatchJs_ok, pureE, bindE_ok]

/-- The intended contract of `findLastEarningsDate`, verified for the
repaired module (the generic body with `startOfDay` bound): a non-null
answer is strictly before the bound and is the maximum available
record date strictly before it, and when no record lies strictly
before the bound the answer is `null`. -/
theorem findLastEarningsDateWith_fixed_spec (todayStr : String) (o : FetchOracle)
    (ticker beforeDateStr : String) (l : List FinnhubEarning)
    (hok : o.earningsCalendar ticker
      (if beforeDateStr = "today" then todayStr else beforeDateStr) = .ok l) :
    (∀ s, findLastEarningsDateWith startOfDayFixed todayStr o ticker beforeDateStr =
        .ok (some s) →
      s < (if beforeDateStr = "today" then todayStr else beforeDateStr) ∧
      s ∈ l.map FinnhubEarning.date ∧
      ∀ x ∈ l.map FinnhubEarning.date,
        x < (if beforeDateStr = "today" then todayStr else beforeDateStr) → x ≤ s) ∧
    ((∀ x ∈ l.map FinnhubEarning.date,
        ¬ x < (if beforeDateStr = "today" then todayStr else beforeDateStr)) →
      findLastEarningsDateWith startOfDayFixed todayStr o ticker beforeDateStr = .ok none) := by
  have hval : findLastEarningsDateWith startOfDayFixed todayStr o ticker beforeDateStr =
      .ok (match (l.filter fun e => decide (e.date <
            (if beforeDateStr = "today" then todayStr else beforeDateStr))).mergeSort
          (fun a b => decide (b.date ≤ a.date)) with
        | [] => none
        | e :: _ => some e.date) := by
    have tail : ∀ b, o.earningsCalendar ticker b = .ok l →
        tryCatchJs
          (o.earningsCalendar ticker b >>= fun earnings =>
            if earnings.length = 0 then pure none
            else
              filterE
                (fun e => startOfDayFixed e.date >>= fun dd =>
                  pure (decide (dd < b))) earnings >>= fun pastEarnings =>
              match pastEarnings.mergeSort (fun a b => decide (b.date ≤ a.date)) with
              | [] => pure none
              | e :: _ => pure (some e.date))
          (fun _ => .ok none) =
        .ok (match (l.filter fun e => decide (e.date < b)).mergeSort
            (fun a b => decide (b.date ≤ a.date)) with
          | [] => none
          | e :: _ => some e.date) := by
      intro b hb
      rw [hb, bindE_ok]
      cases l with
      | nil => simp [tryCatchJs_ok, pureE]
      | cons x xs =>
        rw [if_neg (by simp)]
        rw [filterE_fixed, bindE_ok]
        cases hs : (List.filter (fun e => decide (e.date < b)) (x :: xs)).mergeSort
            (fun a b => decide (b.date ≤ a.date)) with
        | nil => simp [tryCatchJs_ok, pureE]
        | cons e rest => simp [tryCatchJs_ok, pureE]
    rw [findLastEarningsDateWith]
    by_cases hb : beforeDateStr = "today"
    · rw [if_pos hb] at hok
      rw [if_pos hb, if_pos hb]
      exact tail todayStr hok
    · rw [if_neg hb] at hok
      rw [if_neg hb, if_neg hb]
      exact tail beforeDateStr hok
  set bd := if beforeDateStr = "today" then todayStr else beforeDateStr with hbd
  have hperm : ((l.filter fun e => decide (e.date < bd)).mergeSort
      (fun a b => decide (b.date ≤ a.date))).Perm
      (l.filter fun e => decide (e.date < bd)) := List.mergeSort_perm _ _
  have hsorted := @List.sorted_mergeSort FinnhubEarning
    (fun a b => decide (b.date ≤ a.date))
    (fun a b c hab hbc => by
      simp only [decide_eq_true_eq] at *
      exact le_trans hbc hab)
    (fun a b => by
      simp only [Bool.or_eq_true, decide_eq_true_eq]
      exact le_total b.date a.date)
    (l.filter fun e => decide (e.date < bd))
  cases hm : (l.filter fun e => decide (e.date < bd)).mergeSort
      (fun a b => decide (b.date ≤ a.date)) with
  | nil =>
    rw [hm] at hval
    constructor
    · intro s hs'
      rw [hval] at hs'
      simp at hs'
    · intro _
      exact hval
  | cons e rest =>
    rw [hm] at hval hperm hsorted
    have he_mem : e ∈ l.filter fun x => decide (x.date < bd) :=
      hperm.subset (List.mem_cons_self e rest)
    have he_l : e ∈ l := (List.mem_filter.mp he_mem).1
    have he_lt : e.date < bd := by
      have := (List.mem_filter.mp he_mem).2
      simpa using this
    constructor
    · intro s hs'
      rw [hval] at hs'
      have hse : s = e.date := by
        simp at hs'
        exact hs'.symm
      subst hse
      refine ⟨he_lt, List.mem_map_of_mem FinnhubEarning.date he_l, ?_⟩
      intro x hx hxlt
      obtain ⟨f, hf_l, hf_date⟩ := List.mem_map.mp hx
      have hf_fl : f ∈ l.filter fun e => decide (e.date < bd) :=
        List.mem_filter.mpr ⟨hf_l, by simp [hf_date, hxlt]⟩
      have hf_sorted : f ∈ e :: rest := hperm.symm.subset hf_fl
      rcases List.mem_cons.mp hf_sorted with hfe | hfr
      · rw [← hf_date, hfe]
      · have := (List.pairwise_cons.mp hsorted).1 f hfr
        simp only [decide_eq_true_eq] at this
        rw [← hf_date]
        exact this
    · intro hall
      exfalso
      exact hall e.date (List.mem_map_of_mem FinnhubEarning.date he_l) he_lt

/-- A JSON-safe value as produced by an `ivm` `copy:true` transfer out
of the isolate: scalar, `null`, `undefined`, or nested plain
object/list of these. -/
inductive JsonValue where
  | null
  | undef
  | bool (b : Bool)
  | num (q : ℚ)
  | str (s : String)
  | arr (elems : List JsonValue)
  | obj (fields : List (String × JsonValue))

/-- How a value crosses the sandbox boundary: as a deep copy
(`copy: true`) or as a live handle (`new ivm.Reference(...)`,
`derefInto()`, `reference: true`). -/
inductive CrossMode where
  | copy
  | reference
deriving DecidableEq

/-- Observable host-side actions of one `executeJsInIsolate` run. -/
inductive HostEvent where
  | isolateCreated (memoryLimitMB : Nat)
  | globalSet (name : String) (mode : CrossMode)
  | compiled
  | ran (timeoutMs : Nat) (resultMode : CrossMode)
  | applied (timeoutMs : Nat) (resultMode : CrossMode)
  | contextReleased
  | isolateDisposed
  | teardownErrorLogged
  | execErrorLogged
deriving DecidableEq

/-- Outcomes of the `isolated-vm` engine calls made by
`executeJsInIsolate`, one field per call site: isolate construction,
context creation, the global/capability installs (collapsed into one
outcome — a failure anywhere in the install phase), script
compilation, `script.run` (`ok b` means the call returned, with `b`
telling whether the returned value is an `ivm.Reference`; `error`
covers timeouts and synchronous throws), the promise `apply` await
(the copied resolution value or the thrown/timeout error), and the two
teardown calls `context.release` and `isolate.dispose`. -/
structure IsolateOracle where
  createIsolate : Except JsErr Unit
  createContext : Except JsErr Unit
  setGlobals : Except JsErr Unit
  compile : Except JsErr Unit
  run : Except JsErr Bool
  apply : Except JsErr JsonValue
  release : Except JsErr Unit
  dispose : Except JsErr Unit

/-- `const ISOLATE_MEMORY_LIMIT = 128; // MB` (execute-metric.ts). -/
def ISOLATE_MEMORY_LIMIT : Nat := 128

/-- `const SCRIPT_EXECUTION_TIMEOUT = 15000;` (execute-metric.ts). -/
def SCRIPT_EXECUTION_TIMEOUT : Nat := 15000

/-- The keys of `exposedApiImplementations`, in declaration order. -/
def apiNames : List String :=
  ["getTickerPrice", "getHistoricalData", "getExchangeRate",
   "findLastEarningsDate", "getPriceOnDate", "getDateAfterTradingDays"]

/-- The install phase: `jail.set("global", jail.derefInto())` passes a
live handle, and each capability is installed as
`new ivm.Reference(funcImpl)` — a live function reference. -/
def installEvents : List HostEvent :=
  HostEvent.globalSet "global" CrossMode.reference ::
    apiNames.map fun n => HostEvent.globalSet n CrossMode.reference

/-- The `try` block of `executeJsInIsolate`: create the isolate (with
the module's memory-limit constant) and context, install the
capability surface, compile, run (requesting the result as a promise
reference, under the module's timeout constant), check the returned
value is a reference, and await it (requesting the resolution as a
copy, under the same timeout).  Returns the block's outcome, whether
the isolate and the context were created, and the emitted events. -/
def tryBody (o : IsolateOracle) :
    Except JsErr JsonValue × Bool × Bool × List HostEvent :=
  match o.createIsolate with
  | .error e => (.error e, false, false, [])
  | .ok _ =>
    match o.createContext with
    | .error e => (.error e, true, false, [.isolateCreated ISOLATE_MEMORY_LIMIT])
    | .ok _ =>
      match o.setGlobals with
      | .error e => (.error e, true, true, [.isolateCreated ISOLATE_MEMORY_LIMIT])
      | .ok _ =>
        match o.compile with
        | .error e => (.error e, true, true,
            .isolateCreated ISOLATE_MEMORY_LIMIT :: installEvents)
        | .ok _ =>
          match o.run with
          | .error e => (.error e, true, true,
              .isolateCreated ISOLATE_MEMORY_LIMIT :: installEvents ++
                [.compiled, .ran SCRIPT_EXECUTION_TIMEOUT CrossMode.reference])
          | .ok isRef =>
            if isRef then
              match o.apply with
              | .error e => (.error e, true, true,
                  .isolateCreated ISOLATE_MEMORY_LIMIT :: installEvents ++
                    [.compiled, .ran SCRIPT_EXECUTION_TIMEOUT CrossMode.reference,
                      .applied SCRIPT_EXECUTION_TIMEOUT CrossMode.copy])
              | .ok v => (.ok v, true, true,
                  .isolateCreated ISOLATE_MEMORY_LIMIT :: installEvents ++
                    [.compiled, .ran SCRIPT_EXECUTION_TIMEOUT CrossMode.reference,
                      .applied SCRIPT_EXECUTION_TIMEOUT CrossMode.copy])
            else
              (.error (.hostError "Script execution did not return a Promise reference."),
                true, true,
                .isolateCreated ISOLATE_MEMORY_LIMIT :: installEvents ++
                  [.compiled, .ran SCRIPT_EXECUTION_TIMEOUT CrossMode.reference])

/-- The `finally` block: `context.release()` if a context exists and
`isolate.dispose()` if an isolate exists, each inside its own
`try/catch` whose handler only logs. -/
def teardownEvents (o : IsolateOracle) (ctxCreated isoCreated : Bool) : List HostEvent :=
  (if ctxCreated then
      match o.release with
      | .ok _ => [HostEvent.contextReleased]
      | .error _ => [HostEvent.contextReleased, HostEvent.teardownErrorLogged]
    else []) ++
  (if isoCreated then
      match o.dispose with
      | .ok _ => [HostEvent.isolateDisposed]
      | .error _ => [HostEvent.isolateDisposed, HostEvent.teardownErrorLogged]
    else [])

/-- What one `executeJsInIsolate` call delivers (the resolved value, or
the rethrown error from the `catch`) together with the events it
emitted. -/
structure ExecOutcome where
  result : Except JsErr JsonValue
  events : List HostEvent

/-- `executeJsInIsolate` (execute-metric.ts): the `try` body, then the
`catch` (log and rethrow — the result is the body's outcome
unchanged), then the `finally` teardown. -/
def executeJsInIsolate (o : IsolateOracle) (jsCode : String) : ExecOutcome :=
  match tryBody o with
  | (r, isoC, ctxC, evs) =>
    { result := r
      events := evs ++
        (match r with
          | .ok _ => []
          | .error _ => [HostEvent.execErrorLogged]) ++
        teardownEvents o ctxC isoC }

theorem executeJs_result (o : IsolateOracle) (jsCode : String) :
    (executeJsInIsolate o jsCode).result = (tryBody o).1 := by
  unfold executeJsInIsolate
  rcases h : tryBody o with ⟨r, isoC, ctxC, evs⟩
  simp

theorem executeJs_events (o : IsolateOracle) (jsCode : String) :
    (executeJsInIsolate o jsCode).events =
      (tryBody o).2.2.2 ++
        (match (tryBody o).1 with
          | .ok _ => []
          | .error _ => [HostEvent.execErrorLogged]) ++
        teardownEvents o (tryBody o).2.2.1 (tryBody o).2.1 := by
  unfold executeJsInIsolate
  rcases h : tryBody o with ⟨r, isoC, ctxC, evs⟩
  simp

theorem tryBody_flags (o : IsolateOracle)
    (hIso : o.createIsolate = .ok ()) (hCtx : o.createContext = .ok ()) :
    (tryBody o).2.1 = true ∧ (tryBody o).2.2.1 = true := by
  unfold tryBody
  rw [hIso, hCtx]
  rcases o.setGlobals with esg | usg <;>
    rcases o.compile with ecm | ucm <;>
    rcases o.run with ern | brn <;>
    rcases o.apply with eap | vap <;>
    (try cases brn) <;>
    simp

/-- Every event the `try` body emits is one of the session-setup
events: the creation with the module's memory limit, a reference-mode
install, the compile mark, the `run` call with the module's timeout
(reference result), or the `apply` call with the module's timeout
(copied result). -/
theorem tryBody_events_subset (o : IsolateOracle) :
    (tryBody o).2.2.2 ⊆
      HostEvent.isolateCreated ISOLATE_MEMORY_LIMIT :: installEvents ++
        [HostEvent.compiled,
         HostEvent.ran SCRIPT_EXECUTION_TIMEOUT CrossMode.reference,
         HostEvent.applied SCRIPT_EXECUTION_TIMEOUT CrossMode.copy] := by
  unfold tryBody
  rcases o.createIsolate with ei | ui <;>
    rcases o.createContext with ec | uc <;>
    rcases o.setGlobals with esg | usg <;>
    rcases o.compile with ecm | ucm <;>
    rcases o.run with ern | brn <;>
    rcases o.apply with eap | vap <;>
    (try cases brn) <;>
    (intro x hx
     simp at hx ⊢
     all_goals tauto)

/-- The teardown emits only release/dispose marks and teardown logs. -/
theorem teardownEvents_subset (o : IsolateOracle) (ctxC isoC : Bool) :
    teardownEvents o ctxC isoC ⊆
      [HostEvent.contextReleased, HostEvent.isolateDisposed,
       HostEvent.teardownErrorLogged] := by
  unfold teardownEvents
  cases ctxC <;> cases isoC <;>
    rcases o.release with erl | url <;>
    rcases o.dispose with edp | udp <;>
    (intro x hx
     simp at hx ⊢
     all_goals tauto)

theorem tryBody_no_teardown (o : IsolateOracle) :
    HostEvent.contextReleased ∉ (tryBody o).2.2.2 ∧
    HostEvent.isolateDisposed ∉ (tryBody o).2.2.2 ∧
    HostEvent.teardownErrorLogged ∉ (tryBody o).2.2.2 := by
  refine ⟨fun h => ?_, fun h => ?_, fun h => ?_⟩ <;>
    (have hb := tryBody_events_subset o h
     simp [installEvents, apiNames] at hb)

theorem teardownEvents_count (o : IsolateOracle) :
    (teardownEvents o true true).count HostEvent.contextReleased = 1 ∧
    (teardownEvents o true true).count HostEvent.isolateDisposed = 1 ∧
    (∀ e, o.release = .error e →
      HostEvent.teardownErrorLogged ∈ teardownEvents o true true) ∧
    (∀ e, o.dispose = .error e →
      HostEvent.teardownErrorLogged ∈ teardownEvents o true true) := by
  rcases hrl : o.release with erl | url <;>
    rcases hdp : o.dispose with edp | udp <;>
      simp [teardownEvents, hrl, hdp, List.count_cons, List.count_append]

/-- C2 — once the isolate and the context exist (the states from which
normal completion, compile error, runtime error and timeout are
reached), every execution releases the context exactly once and
disposes the isolate exactly once, logs any teardown exception, and
delivers the body's outcome unchanged — a teardown failure is never
propagated to the caller. -/
theorem teardown_exactly_once (o : IsolateOracle) (jsCode : String)
    (hIso : o.createIsolate = .ok ()) (hCtx : o.createContext = .ok ()) :
    ((executeJsInIsolate o jsCode).events.count HostEvent.contextReleased = 1) ∧
    ((executeJsInIsolate o jsCode).events.count HostEvent.isolateDisposed = 1) ∧
    (∀ e, o.release = .error e →
      HostEvent.teardownErrorLogged ∈ (executeJsInIsolate o jsCode).events) ∧
    (∀ e, o.dispose = .error e →
      HostEvent.teardownErrorLogged ∈ (executeJsInIsolate o jsCode).events) ∧
    ((executeJsInIsolate o jsCode).result = (tryBody o).1) := by
  obtain ⟨hf1, hf2⟩ := tryBody_flags o hIso hCtx
  have hev := executeJs_events o jsCode
  rw [hf1, hf2] at hev
  obtain ⟨ht1, ht2, ht3, ht4⟩ := teardownEvents_count o
  obtain ⟨hn1, hn2, hn3⟩ := tryBody_no_teardown o
  have hcatch : ∀ x : HostEvent, x ≠ HostEvent.execErrorLogged →
      (match (tryBody o).1 with
        | .ok _ => ([] : List HostEvent)
        | .error _ => [HostEvent.execErrorLogged]).count x = 0 := by
    intro x hx
    rcases (tryBody o).1 with e | v <;> simp [List.count_cons, List.count_nil, hx]
  refine ⟨?_, ?_, ?_, ?_, executeJs_result o jsCode⟩
  · rw [hev, List.count_append, List.count_append]
    rw [List.count_eq_zero.mpr hn1, hcatch _ (by simp), ht1]
  · rw [hev, List.count_append, List.count_append]
    rw [List.count_eq_zero.mpr hn2, hcatch _ (by simp), ht2]
  · intro e he
    rw [hev]
    exact List.mem_append.mpr (Or.inr (ht3 e he))
  · intro e he
    rw [hev]
    exact List.mem_append.mpr (Or.inr (ht4 e he))

/-- An oracle for a fully successful run whose `context.release`
throws during teardown. -/
def oracleRunOk : IsolateOracle where
  createIsolate := .ok ()
  createContext := .ok ()
  setGlobals := .ok ()
  compile := .ok ()
  run := .ok true
  apply := .ok (JsonValue.num 5)
  release := .error (.hostError "already released")
  dispose := .ok ()

/-- C2 witness: on a successful run with a throwing `release`, both
teardown calls happen exactly once and the teardown failure is logged. -/
theorem teardown_exactly_once_witness :
    ((executeJsInIsolate oracleRunOk "(async () => 5)();").events.count
        HostEvent.contextReleased = 1) ∧
    ((executeJsInIsolate oracleRunOk "(async () => 5)();").events.count
        HostEvent.isolateDisposed = 1) ∧
    HostEvent.teardownErrorLogged ∈
      (executeJsInIsolate oracleRunOk "(async () => 5)();").events := by
  have h := teardown_exactly_once oracleRunOk "(async () => 5)();" rfl rfl
  exact ⟨h.1, h.2.1, h.2.2.1 (.hostError "already released") rfl⟩

/-- An oracle whose compile step throws a syntax error (a malformed
snippet) after isolate and context creation succeeded. -/
def oracleCompileFail : IsolateOracle where
  createIsolate := .ok ()
  createContext := .ok ()
  setGlobals := .ok ()
  compile := .error (.hostError "SyntaxError: Unexpected end of input")
  run := .ok true
  apply := .ok JsonValue.null
  release := .ok ()
  dispose := .ok ()

/-- C3 counterexample — a compile failure is not delivered as any
value (no tagged `{kind, message}` object): the driver rethrows the
raw exception, so the call's outcome is an error, not a value. -/
theorem result_not_tagged_on_compile_error :
    ¬ ∃ v, (executeJsInIsolate oracleCompileFail "(").result = .ok v := by
  rintro ⟨v, hv⟩
  have hres : (executeJsInIsolate oracleCompileFail "(").result =
      .error (.hostError "SyntaxError: Unexpected end of input") := rfl
  rw [hres] at hv
  simp at hv

/-- C3 amended — the driver delivers either the copied resolution
value of the snippet's promise, or it rethrows a session-level
exception to its caller: the raw error of isolate/context creation,
install, compile, run (timeout or synchronous throw), the
non-promise-result check, or the await (runtime error or timeout).  It
never wraps failures into a `{kind, message}` value. -/
theorem driver_result_classification (o : IsolateOracle) (jsCode : String) :
    (∀ v, (executeJsInIsolate o jsCode).result = .ok v → o.apply = .ok v) ∧
    (∀ e, (executeJsInIsolate o jsCode).result = .error e →
      o.createIsolate = .error e ∨ o.createContext = .error e ∨
      o.setGlobals = .error e ∨ o.compile = .error e ∨ o.run = .error e ∨
      (o.run = .ok false ∧
        e = .hostError "Script execution did not return a Promise reference.") ∨
      o.apply = .error e) := by
  constructor
  · intro v hv
    rw [executeJs_result] at hv
    rcases hI : o.createIsolate with eI | uI <;>
      rcases hC : o.createContext with eC | uC <;>
      rcases hsg : o.setGlobals with esg | usg <;>
      rcases hcm : o.compile with ecm | ucm <;>
      rcases hrn : o.run with ern | brn <;>
      rcases hap : o.apply with eap | vap <;>
      (try cases brn) <;>
      simp [tryBody, hI, hC, hsg, hcm, hrn, hap] at hv <;>
      simp [hap, hv]
  · intro e he
    rw [executeJs_result] at he
    rcases hI : o.createIsolate with eI | uI <;>
      rcases hC : o.createContext with eC | uC <;>
      rcases hsg : o.setGlobals with esg | usg <;>
      rcases hcm : o.compile with ecm | ucm <;>
      rcases hrn : o.run with ern | brn <;>
      rcases hap : o.apply with eap | vap <;>
      (try cases brn) <;>
      simp [tryBody, hI, hC, hsg, hcm, hrn, hap] at he <;>
      simp [hI, hC, hsg, hcm, hrn, hap, he] <;>
      all_goals tauto

/-- C3 witness: on a fully successful run the delivered value is
exactly the copied resolution of the snippet's promise. -/
theorem driver_result_classification_witness :
    oracleRunOk.apply = .ok (JsonValue.num 5) :=
  (driver_result_classification oracleRunOk "(async () => 5)();").1
    (JsonValue.num 5) rfl

/-- Every event of a run is a setup event, the error log, or a
teardown event. -/
theorem executeJs_events_subset (o : IsolateOracle) (jsCode : String) :
    (executeJsInIsolate o jsCode).events ⊆
      HostEvent.isolateCreated ISOLATE_MEMORY_LIMIT :: installEvents ++
        [HostEvent.compiled,
         HostEvent.ran SCRIPT_EXECUTION_TIMEOUT CrossMode.reference,
         HostEvent.applied SCRIPT_EXECUTION_TIMEOUT CrossMode.copy,
         HostEvent.execErrorLogged, HostEvent.contextReleased,
         HostEvent.isolateDisposed, HostEvent.teardownErrorLogged] := by
  intro x hx
  rw [executeJs_events] at hx
  rcases List.mem_append.mp hx with hx' | hx'
  · rcases List.mem_append.mp hx' with hx'' | hx''
    · have hb := tryBody_events_subset o hx''
      simp at hb ⊢
      tauto
    · rcases h1 : (tryBody o).1 with e | v <;> rw [h1] at hx'' <;> simp at hx'' <;>
        simp [hx'']
  · have hb := teardownEvents_subset o _ _ hx'
    simp at hb ⊢
    tauto

/-- C8 counterexample — the session's memory ceiling and timeout are
not caller-supplied: `executeJsInIsolate` takes only the snippet text,
and a concrete run is created with the module-level constants
(128 MB, 15000 ms) the caller never passed. -/
theorem session_config_hard_coded :
    HostEvent.isolateCreated 128 ∈
      (executeJsInIsolate oracleRunOk "(async () => 5)();").events ∧
    HostEvent.ran 15000 CrossMode.reference ∈
      (executeJsInIsolate oracleRunOk "(async () => 5)();").events ∧
    HostEvent.applied 15000 CrossMode.copy ∈
      (executeJsInIsolate oracleRunOk "(async () => 5)();").events ∧
    ISOLATE_MEMORY_LIMIT = 128 ∧ SCRIPT_EXECUTION_TIMEOUT = 15000 := by
  refine ⟨?_, ?_, ?_, rfl, rfl⟩ <;> decide

/-- C8 amended — the memory ceiling and the timeout are explicit
module-level constants (128 MB, 15000 ms), applied uniformly to every
session: whatever the oracle and the snippet, every creation uses the
memory-limit constant and every `run`/`apply` call uses the timeout
constant; they are not parameters of `executeJsInIsolate`. -/
theorem session_config_constant (o : IsolateOracle) (jsCode : String) :
    (∀ m, HostEvent.isolateCreated m ∈ (executeJsInIsolate o jsCode).events →
      m = ISOLATE_MEMORY_LIMIT) ∧
    (∀ t md, HostEvent.ran t md ∈ (executeJsInIsolate o jsCode).events →
      t = SCRIPT_EXECUTION_TIMEOUT) ∧
    (∀ t md, HostEvent.applied t md ∈ (executeJsInIsolate o jsCode).events →
      t = SCRIPT_EXECUTION_TIMEOUT) := by
  refine ⟨?_, ?_, ?_⟩
  · intro m hm
    have hb := executeJs_events_subset o jsCode hm
    simp [installEvents, apiNames] at hb
    exact hb
  · intro t md hm
    have hb := executeJs_events_subset o jsCode hm
    simp [installEvents, apiNames] at hb
    exact hb.1
  · intro t md hm
    have hb := executeJs_events_subset o jsCode hm
    simp [installEvents, apiNames] at hb
    exact hb.1

/-- C8 witness: applied at the concrete successful run, the creation
event's limit is the module constant. -/
theorem session_config_constant_witness : 128 = ISOLATE_MEMORY_LIMIT :=
  (session_config_constant oracleRunOk "(async () => 5)();").1 128 (by decide)

/-- C9 counterexample — a capability function crosses the boundary as
a live `ivm.Reference`, not as a copy: the install of
`getTickerPrice` on a concrete run is a reference-mode crossing. -/
theorem capability_crossing_by_reference :
    HostEvent.globalSet "getTickerPrice" CrossMode.reference ∈
      (executeJsInIsolate oracleRunOk "(async () => 5)();").events := by
  decide

/-- C9 amended — crossing modes as the driver actually configures
them: everything installed into the isolate (the global self-reference
via `derefInto` and the six capability functions as
`new ivm.Reference(...)`) crosses as a live reference, the snippet's
produced promise crosses host-ward as a reference
(`result: {promise: true, reference: true}`), and only the final
resolution value crosses as a deep copy
(`result: {promise: true, copy: true}`). -/
theorem crossing_modes (o : IsolateOracle) (jsCode : String) :
    (∀ name md, HostEvent.globalSet name md ∈ (executeJsInIsolate o jsCode).events →
      md = CrossMode.reference) ∧
    (∀ t md, HostEvent.ran t md ∈ (executeJsInIsolate o jsCode).events →
      md = CrossMode.reference) ∧
    (∀ t md, HostEvent.applied t md ∈ (executeJsInIsolate o jsCode).events →
      md = CrossMode.copy) := by
  refine ⟨?_, ?_, ?_⟩
  · intro name md hm
    have hb := executeJs_events_subset o jsCode hm
    simp [installEvents, apiNames] at hb
    tauto
  · intro t md hm
    have hb := executeJs_events_subset o jsCode hm
    simp [installEvents, apiNames] at hb
    exact hb.2
  · intro t md hm
    have hb := executeJs_events_subset o jsCode hm
    simp [installEvents, apiNames] at hb
    exact hb.2

/-- C9 witness: on the concrete successful run, the final result
crossing is a copy. -/
theorem crossing_modes_witness : CrossMode.copy = CrossMode.copy :=
  (crossing_modes oracleRunOk "(async () => 5)();").2.2 15000 CrossMode.copy
    (by decide)
